import Mathlib

/-!
# Verification of the HEAR baseline embedding pipeline

A shallow embedding of the baseline audio-embedding module
(`hearkit/baseline.py`): the `frame_audio` framer, the
`RandomProjectionMelEmbedding.forward` spectral transform, and the
`get_audio_embedding` batched-inference driver.

Modelling conventions:
* Python floats are modelled as exact numbers: real numbers `ℝ` for audio
  samples and model buffers, rationals `ℚ` for the hop size and timestamps
  (so that the framing index arithmetic, including Python `round`, is exact
  and computable).
* A rank-2 torch tensor of shape `(R, S)` is a `List (List ℝ)` of `R` rows,
  each of length `S`, together with its declared column count (so that the
  shape is meaningful even when `R = 0`).
* Row-wise torch operations (`rfft`, `matmul`, elementwise ops broadcast over
  the batch dimension) are modelled by mapping a per-row function over the
  list of rows.
* The `while True` loop of `frame_audio` is modelled by a fuel-indexed step
  function `frameLoopFuel`; `none` models non-termination of the search for
  the last frame.
* Python exceptions raised by `get_audio_embedding` are modelled by
  `Except DriverErr`; mutation of the model object (`model.to`,
  `model.eval()`) is modelled by returning the updated model alongside the
  result.
-/

/-- Python `round` on an exact rational: round to the nearest integer,
ties to the even integer (banker's rounding), as `int(round(x))` does in
`frame_audio`. -/
def pyRound (q : ℚ) : ℤ :=
  if q - (⌊q⌋ : ℚ) < 1/2 then ⌊q⌋
  else if 1/2 < q - (⌊q⌋ : ℚ) then ⌊q⌋ + 1
  else if ⌊q⌋ % 2 = 0 then ⌊q⌋ else ⌊q⌋ + 1

/-- Fuel-indexed worker for `batchChunk`; the fuel is the length of the list,
consumed at least one element per step. -/
def batchChunkF {α : Type} (b : ℕ) : ℕ → List α → List (List α)
  | 0, _ => []
  | _ + 1, [] => []
  | fuel + 1, x :: xs => (x :: xs.take (b - 1)) :: batchChunkF b fuel (xs.drop (b - 1))

/-- Partition a list into consecutive chunks of at most `b` elements, the way
`torch.utils.data.DataLoader(dataset, batch_size=b, shuffle=False,
drop_last=False)` partitions the flattened frame stream in
`get_audio_embedding`. -/
def batchChunk {α : Type} (b : ℕ) (l : List α) : List (List α) :=
  batchChunkF b l.length l

/-- Dot product of two rows (the scalar kernel of `torch.matmul`). -/
def dotProd (a b : List ℝ) : ℝ :=
  (List.zipWith (fun x y => x * y) a b).sum

/-- Column count of a matrix stored as a list of rows (shape bookkeeping for
`torch.matmul`; meaningful for nonempty matrices with uniform row length). -/
def matCols (M : List (List ℝ)) : ℕ := (M.headD []).length

/-- Vector-matrix product `v · M` (as in `x.matmul(self.projection)`), whose
entry `j` is the dot product of `v` with column `j` of `M`. -/
def vecMat (v : List ℝ) (M : List (List ℝ)) : List ℝ :=
  (List.range (matCols M)).map (fun j =>
    (List.zipWith (fun vi row => vi * row.getD j 0) v M).sum)

/-- One-sided real-input discrete Fourier transform of one frame, as computed
by `torch.fft.rfft` on the last dimension: `n/2 + 1` complex outputs, where
output `k` is `Σ_j x_j · exp(-2·π·i·j·k/n)`. -/
noncomputable def rfft (x : List ℝ) : List ℂ :=
  (List.range (x.length / 2 + 1)).map (fun (k : ℕ) =>
    ((List.range x.length).map (fun (j : ℕ) =>
      ((x.getD j 0 : ℝ) : ℂ) *
        Complex.exp (-(2 * ((Real.pi : ℝ) : ℂ) * Complex.I * ((j : ℕ) : ℂ) * ((k : ℕ) : ℂ))
          / ((x.length : ℕ) : ℂ)))).sum)

/-- The state of a `RandomProjectionMelEmbedding` model object: the attributes
read by `forward` and `get_audio_embedding`, the `torch.nn.Module` training
flag (toggled by `model.eval()`), and the device the module lives on
(changed by `model.to`).  `isRPME` models whether the object passes
`isinstance(model, RandomProjectionMelEmbedding)`. -/
structure Model where
  isRPME : Bool
  sample_rate : ℕ
  embedding_size : ℕ
  n_fft : ℕ
  n_mels : ℕ
  epsilon : ℝ
  window : List ℝ
  mel_scale : List (List ℝ)
  projection : List (List ℝ)
  training : Bool
  device : ℕ

/-- Structural well-formedness of a model's buffers, as established by
`RandomProjectionMelEmbedding.__init__`: the Hann window has length `n_fft`,
the mel filter matrix has shape `(n_mels, n_fft/2 + 1)`, the projection
matrix has shape `(n_mels, embedding_size)`, and there is at least one mel
band. -/
def Model.wf (m : Model) : Prop :=
  m.window.length = m.n_fft ∧
  m.mel_scale.length = m.n_mels ∧
  (∀ row ∈ m.mel_scale, row.length = m.n_fft / 2 + 1) ∧
  m.projection.length = m.n_mels ∧
  (∀ row ∈ m.projection, row.length = m.embedding_size) ∧
  0 < m.n_mels

/-- The value of the class attribute `RandomProjectionMelEmbedding.sample_rate`,
which `get_audio_embedding` passes to `frame_audio` (line 199 of
`baseline.py` names the class, not the model instance). -/
def classSampleRate : ℕ := 44100

/-- The per-frame body of `RandomProjectionMelEmbedding.forward`, translated
line by line: window, one-sided real FFT, power spectrum, mel reduction
(`matmul` with the transposed mel filter matrix, i.e. row `i` of the output
is the dot product with mel row `i`), log compression with the epsilon
floor, and random projection. -/
noncomputable def forward1 (m : Model) (x : List ℝ) : List ℝ :=
  let windowed := List.zipWith (fun a b => a * b) x m.window
  let fx := rfft windowed
  let power := fx.map (fun z => Complex.abs z ^ 2)
  let melred := m.mel_scale.map (fun row => dotProd power row)
  let logmel := melred.map (fun v => Real.log (v + m.epsilon))
  vecMat logmel m.projection

/-- `forward` on a batch of frames: every torch operation in the body acts
independently on each row of the `(N, n_fft)` input, so the batch transform
is the per-frame transform mapped over the rows. -/
noncomputable def forwardB (m : Model) (xs : List (List ℝ)) : List (List ℝ) :=
  xs.map (forward1 m)

/-- Step 1 of the spec's embed pipeline: multiply each frame element-wise by
the window buffer. -/
def stepWindow (m : Model) (x : List ℝ) : List ℝ :=
  List.zipWith (fun a b => a * b) x m.window

/-- Step 3 of the spec's embed pipeline: squared magnitude of each complex
FFT value. -/
noncomputable def stepPower (l : List ℂ) : List ℝ :=
  l.map (fun z => Complex.abs z ^ 2)

/-- Step 4 of the spec's embed pipeline: multiply the power spectrum by the
transposed mel filter matrix, giving one value per mel band. -/
def stepMel (m : Model) (p : List ℝ) : List ℝ :=
  m.mel_scale.map (fun row => dotProd p row)

/-- Step 5 of the spec's embed pipeline: element-wise `log(x + epsilon)`. -/
noncomputable def stepLog (m : Model) (v : List ℝ) : List ℝ :=
  v.map (fun t => Real.log (t + m.epsilon))

/-- Step 6 of the spec's embed pipeline: multiply by the
`(mel_bands, embedding_size)` projection matrix. -/
def stepProj (m : Model) (v : List ℝ) : List ℝ :=
  vecMat v m.projection

/-- The spec's embed pipeline, written as the composition of the six named
steps of §4.2 (step 2 being `rfft`). -/
noncomputable def forwardSpecOne (m : Model) (x : List ℝ) : List ℝ :=
  stepProj m (stepLog m (stepMel m (stepPower (rfft (stepWindow m x)))))

/-- Zero-pad one recording as `frame_audio` does:
`F.pad(audio, (frame_size // 2, frame_size - frame_size // 2))` puts
`⌊n/2⌋` zeros on the left and `n - ⌊n/2⌋` zeros on the right. -/
def padRow (n : ℕ) (r : List ℝ) : List ℝ :=
  List.replicate (n / 2) (0 : ℝ) ++ r ++ List.replicate (n - n / 2) (0 : ℝ)

/-- The continuation test of the `while True` loop in `frame_audio`: frame
`k` still fits if `round(sample_rate * k * hop_size) + frame_size` does not
exceed the padded sample count `P`. -/
def fits (sr : ℕ) (hop : ℚ) (n P : ℕ) (k : ℕ) : Prop :=
  pyRound ((sr : ℚ) * (k : ℕ) * hop) + (n : ℤ) ≤ (P : ℤ)

instance (sr : ℕ) (hop : ℚ) (n P k : ℕ) : Decidable (fits sr hop n P k) := by
  unfold fits
  infer_instance

/-- The frame-emission loop of `frame_audio`, indexed by fuel.  State `k`
means frames `0, …, k` have been appended; the loop then computes the next
frame's start and end and breaks (returning the frame count `k + 1`) exactly
when the next frame no longer fits.  `none` models a search that did not
finish within the given fuel. -/
def frameLoopFuel (sr : ℕ) (hop : ℚ) (n P : ℕ) : ℕ → ℕ → Option ℕ
  | 0, _ => none
  | fuel + 1, k =>
      if fits sr hop n P (k + 1) then frameLoopFuel sr hop n P fuel (k + 1)
      else some (k + 1)

/-- Fuel sufficient for the loop to find the stopping frame whenever the hop
and sample rate are positive (frame starts grow without bound); `0` when
they are not (the loop never stops, see the termination theorem). -/
def fuelBound (sr : ℕ) (hop : ℚ) (P : ℕ) : ℕ :=
  if 0 < hop ∧ 0 < sr then ⌈((P : ℚ) + 1) / ((sr : ℚ) * hop)⌉₊ + 1 else 0

/-- Number of frames `frame_audio` emits for padded sample count `P`:
the result of running the emission loop from its initial state. -/
def numFrames (sr : ℕ) (hop : ℚ) (n P : ℕ) : Option ℕ :=
  frameLoopFuel sr hop n (P) (fuelBound sr hop P) 0

/-- Data-level `frame_audio` on a rank-2 tensor of `rows` with `S` samples
per recording: pad every recording, run the emission loop (padded sample
count `S + n`), and return the `(R, F, n)` frame tensor together with the
timestamps `k * hop_size`.  Frame `k` of a recording is the slice of the
padded signal starting at `round(sample_rate * k * hop_size)` and spanning
`n` samples; `none` models the non-terminating loop. -/
def frameAudio (rows : List (List ℝ)) (S n : ℕ) (hop : ℚ) (sr : ℕ) :
    Option (List (List (List ℝ)) × List ℚ) :=
  match numFrames sr hop n (S + n) with
  | none => none
  | some F =>
      some (rows.map (fun r => (List.range F).map (fun k =>
              ((padRow n r).drop (pyRound ((sr : ℚ) * (k : ℕ) * hop)).toNat).take n)),
            (List.range F).map (fun k => ((k : ℕ) : ℚ) * hop))

/-- Shape semantics of `F.pad(audio, (a, b))` with `a + b = n`: the last
dimension grows by `n`; a tensor with no dimensions cannot be padded. -/
def padLast : List ℕ → ℕ → Option (List ℕ)
  | [], _ => none
  | [d], n => some [d + n]
  | d :: d' :: rest, n => (padLast (d' :: rest) n).map (fun r => d :: r)

/-- Shape semantics of the slice `audio[:, s : s + n]` on dimension 1 of a
tensor with at least two dimensions (the clamping rule of Python slices with
nonnegative bounds). -/
def sliceDim1 : List ℕ → ℕ → ℕ → List ℕ
  | d0 :: d1 :: rest, s, n => d0 :: (min (s + n) d1 - min s d1) :: rest
  | shape, _, _ => shape

/-- Shape semantics of `torch.stack(frames, dim=1)` for `F` frames of a
common shape: a new dimension of size `F` is inserted at position 1. -/
def stackDim1 (sliceShape : List ℕ) (F : ℕ) : List ℕ :=
  match sliceShape with
  | d0 :: rest => d0 :: F :: rest
  | [] => [F]

/-- Shape-level semantics of `frame_audio` on an input tensor of arbitrary
rank, faithful to the order of operations in the source: pad the last
dimension, read `audio.shape[1]` (an index error — `none` — when the rank is
below 2), run the emission loop against that dimension, slice dimension 1
for each emitted frame, and stack the slices (which requires all slice
shapes to agree).  `none` also models a loop that never stops. -/
def frameAudioShape (shape : List ℕ) (n : ℕ) (hop : ℚ) (sr : ℕ) : Option (List ℕ) :=
  match padLast shape n with
  | none => none
  | some padded =>
      match padded.get? 1 with
      | none => none
      | some P =>
          match frameLoopFuel sr hop n P (fuelBound sr hop P) 0 with
          | none => none
          | some F =>
              match (List.range F).map (fun k =>
                  sliceDim1 padded (pyRound ((sr : ℚ) * (k : ℕ) * hop)).toNat n) with
              | [] => none
              | s0 :: rest =>
                  if rest.all (fun s => s = s0) then some (stackDim1 s0 F) else none

/-- The error taxonomy of `get_audio_embedding` (§7 of the spec): the two
`ValueError`s it raises are distinguished by their messages. -/
inductive DriverErr where
  | invalidInput
  | typeMismatch
  deriving DecidableEq

/-- A torch tensor as seen by `get_audio_embedding`: its rank (`audio.ndim`),
its contents when it is the supported rank-2 shape `(R, S)` (rows of length
`cols`), and the device it lives on. -/
structure ATensor where
  ndim : ℕ
  cols : ℕ
  rows : List (List ℝ)
  device : ℕ

/-- Effect of `model.to(device)` on the model object: the module is moved to
the given device; all other state is untouched. -/
def movedTo (m : Model) (d : ℕ) : Model :=
  Model.mk m.isRPME m.sample_rate m.embedding_size m.n_fft m.n_mels m.epsilon
    m.window m.mel_scale m.projection m.training d

/-- Effect of `model.eval()` on the model object: the training flag is set to
false; all other state is untouched. -/
def evalMode (m : Model) : Model :=
  Model.mk m.isRPME m.sample_rate m.embedding_size m.n_fft m.n_mels m.epsilon
    m.window m.mel_scale m.projection false m.device

/-- A model whose declared `sample_rate` attribute is `v`, all other state
unchanged (used to state which attributes the driver actually reads). -/
def withSampleRate (m : Model) (v : ℕ) : Model :=
  Model.mk m.isRPME v m.embedding_size m.n_fft m.n_mels m.epsilon
    m.window m.mel_scale m.projection m.training m.device

/-- The driver `get_audio_embedding`, translated line by line: validate the
rank, validate the model type, move the model to the audio's device, frame
the audio using the instance's `n_fft` and the class attribute
`RandomProjectionMelEmbedding.sample_rate`, flatten the `(R, F, n)` frames
to `R*F` rows, partition them into loader batches, run `forward` over each
batch in eval mode, concatenate, and unflatten to `(R, F, embedding_size)`.
The outer `Option` models non-termination of the framing loop; the returned
`Model` is the state of the caller's model object after the call. -/
noncomputable def getAudioEmbedding (a : ATensor) (m : Model) (hop : ℚ) (b : ℕ) :
    Option (Except DriverErr (List (List (List ℝ)) × List ℚ) × Model) :=
  if a.ndim ≠ 2 then some (Except.error DriverErr.invalidInput, m)
  else if m.isRPME = false then some (Except.error DriverErr.typeMismatch, m)
  else
    let m1 := movedTo m a.device
    match frameAudio a.rows a.cols m1.n_fft hop classSampleRate with
    | none => none
    | some fts =>
        let m2 := evalMode m1
        let flat := fts.1.flatten
        let embs := (batchChunk b flat).map (fun batch => batch.map (forward1 m2))
        some (Except.ok (batchChunk fts.2.length embs.flatten, fts.2), m2)

/-- The timestamps returned by a successful `get_audio_embedding` call
(extracted so that concrete timestamp computations do not have to normalise
the accompanying real-valued embeddings). -/
noncomputable def driverTs (a : ATensor) (m : Model) (hop : ℚ) (b : ℕ) : Option (List ℚ) :=
  match getAudioEmbedding a m hop b with
  | some (Except.ok (_, ts), _) => some ts
  | _ => none

/-- The model object state after a `get_audio_embedding` call (projection of
the driver's result used to reason about mutation of the caller's model). -/
noncomputable def driverModelAfter (a : ATensor) (m : Model) (hop : ℚ) (b : ℕ) : Option Model :=
  match getAudioEmbedding a m hop b with
  | some (_, m2) => some m2
  | none => none

/-! ## Elementary facts about the rounding function -/

theorem floor_le_pyRound (q : ℚ) : ⌊q⌋ ≤ pyRound q := by
  unfold pyRound
  split
  · exact le_rfl
  · split
    · omega
    · split <;> omega

theorem le_pyRound_of_le (c : ℤ) (q : ℚ) (h : (c : ℚ) ≤ q) : c ≤ pyRound q :=
  le_trans (Int.le_floor.mpr h) (floor_le_pyRound q)

theorem pyRound_nonneg (q : ℚ) (h : 0 ≤ q) : 0 ≤ pyRound q :=
  le_pyRound_of_le 0 q (by exact_mod_cast h)

theorem pyRound_nonpos (q : ℚ) (h : q ≤ 0) : pyRound q ≤ 0 := by
  have hfq : (⌊q⌋ : ℚ) ≤ q := Int.floor_le q
  have hf : ⌊q⌋ ≤ 0 := by
    have := Int.floor_le_floor h
    simpa using this
  unfold pyRound
  split
  · exact hf
  · rename_i h1
    split
    · rename_i h2
      have hlt : (⌊q⌋ : ℚ) < -(1/2) := by linarith
      have : (⌊q⌋ : ℚ) < 0 := by linarith
      have : ⌊q⌋ < 0 := by exact_mod_cast this
      omega
    · rename_i h2
      have hr : q - (⌊q⌋ : ℚ) = 1/2 := le_antisymm (not_lt.mp h2) (not_lt.mp h1)
      have : (⌊q⌋ : ℚ) ≤ -(1/2) := by linarith
      have : (⌊q⌋ : ℚ) < 0 := by linarith
      have : ⌊q⌋ < 0 := by exact_mod_cast this
      split <;> omega

theorem pyRound_zero : pyRound 0 = 0 := by
  unfold pyRound
  norm_num

/-! ## Characterisation of the frame-emission loop -/

theorem frameLoopFuel_none_of_fits (sr n P : ℕ) (hop : ℚ)
    (h : ∀ j, 1 ≤ j → fits sr hop n P j) :
    ∀ fuel k, frameLoopFuel sr hop n P fuel k = none := by
  intro fuel
  induction fuel with
  | zero => intro k; rfl
  | succ f ih =>
      intro k
      unfold frameLoopFuel
      rw [if_pos (h (k + 1) (by omega))]
      exact ih (k + 1)

theorem frameLoopFuel_isSome (sr n P : ℕ) (hop : ℚ) :
    ∀ fuel k, (∃ j, k < j ∧ j ≤ k + fuel ∧ ¬ fits sr hop n P j) →
      (frameLoopFuel sr hop n P fuel k).isSome = true := by
  intro fuel
  induction fuel with
  | zero =>
      rintro k ⟨j, h1, h2, _⟩
      omega
  | succ f ih =>
      rintro k ⟨j, h1, h2, h3⟩
      unfold frameLoopFuel
      by_cases hfit : fits sr hop n P (k + 1)
      · rw [if_pos hfit]
        apply ih (k + 1)
        have hne : j ≠ k + 1 := fun he => h3 (he ▸ hfit)
        exact ⟨j, by omega, by omega, h3⟩
      · rw [if_neg hfit]
        rfl

theorem frameLoopFuel_spec (sr n P : ℕ) (hop : ℚ) :
    ∀ fuel k F, frameLoopFuel sr hop n P fuel k = some F →
      k < F ∧ ¬ fits sr hop n P F ∧ ∀ j, k < j → j < F → fits sr hop n P j := by
  intro fuel
  induction fuel with
  | zero => intro k F h; cases h
  | succ f ih =>
      intro k F h
      unfold frameLoopFuel at h
      by_cases hfit : fits sr hop n P (k + 1)
      · rw [if_pos hfit] at h
        obtain ⟨h1, h2, h3⟩ := ih (k + 1) F h
        refine ⟨by omega, h2, fun j hj1 hj2 => ?_⟩
        rcases Nat.eq_or_lt_of_le (Nat.succ_le_of_lt hj1) with he | hl
        · exact he ▸ hfit
        · exact h3 j (by omega) hj2
      · rw [if_neg hfit] at h
        have hF : F = k + 1 := by
          have := Option.some.inj h
          omega
        subst hF
        exact ⟨by omega, hfit, fun j hj1 hj2 => by omega⟩

theorem numFrames_isSome (sr n P : ℕ) (hop : ℚ) (hh : 0 < hop) (hsr : 0 < sr) :
    (numFrames sr hop n P).isSome = true := by
  unfold numFrames
  apply frameLoopFuel_isSome
  have hs : (0 : ℚ) < (sr : ℚ) * hop := by
    have : (0 : ℚ) < (sr : ℚ) := by exact_mod_cast hsr
    positivity
  refine ⟨⌈((P : ℚ) + 1) / ((sr : ℚ) * hop)⌉₊ + 1, by omega, ?_, ?_⟩
  · unfold fuelBound
    rw [if_pos ⟨hh, hsr⟩]
    omega
  · set j : ℕ := ⌈((P : ℚ) + 1) / ((sr : ℚ) * hop)⌉₊ + 1 with hj
    unfold fits
    rw [not_le]
    have hle : ((P : ℚ) + 1) / ((sr : ℚ) * hop) ≤ (j : ℚ) := by
      calc ((P : ℚ) + 1) / ((sr : ℚ) * hop)
          ≤ (⌈((P : ℚ) + 1) / ((sr : ℚ) * hop)⌉₊ : ℚ) := Nat.le_ceil _
        _ ≤ (j : ℚ) := by
            have hj' : ⌈((P : ℚ) + 1) / ((sr : ℚ) * hop)⌉₊ ≤ j := by omega
            exact_mod_cast hj'
    have hmul : ((P : ℚ) + 1) ≤ (j : ℚ) * ((sr : ℚ) * hop) := (div_le_iff₀ hs).mp hle
    have hcast : (((P : ℤ) + 1 : ℤ) : ℚ) ≤ (sr : ℚ) * (j : ℕ) * hop := by
      push_cast
      push_cast at hmul
      linarith
    have hpr : (P : ℤ) + 1 ≤ pyRound ((sr : ℚ) * (j : ℕ) * hop) :=
      le_pyRound_of_le _ _ hcast
    omega

theorem numFrames_eq_none (sr n P : ℕ) (hop : ℚ) (h : ¬(0 < hop ∧ 0 < sr)) :
    numFrames sr hop n P = none := by
  unfold numFrames fuelBound
  rw [if_neg h]
  rfl

theorem numFrames_pos_params (sr n P F : ℕ) (hop : ℚ)
    (h : numFrames sr hop n P = some F) : 0 < hop ∧ 0 < sr := by
  by_contra hc
  rw [numFrames_eq_none sr n P hop hc] at h
  cases h

theorem numFrames_spec (sr n P F : ℕ) (hop : ℚ) (h : numFrames sr hop n P = some F) :
    0 < F ∧ ¬ fits sr hop n P F ∧ ∀ j, 0 < j → j < F → fits sr hop n P j := by
  have := frameLoopFuel_spec sr n P hop (fuelBound sr hop P) 0 F h
  exact this

/-! ## Partition and reassembly lemmas -/

theorem batchChunkF_eq_of_le {α : Type} (b : ℕ) :
    ∀ fuel1 fuel2 (l : List α), l.length ≤ fuel1 → l.length ≤ fuel2 →
      batchChunkF b fuel1 l = batchChunkF b fuel2 l := by
  intro fuel1
  induction fuel1 with
  | zero =>
      intro fuel2 l h1 _
      have : l = [] := List.length_eq_zero.mp (Nat.le_zero.mp h1)
      subst this
      cases fuel2 <;> rfl
  | succ f ih =>
      intro fuel2 l h1 h2
      cases l with
      | nil => cases fuel2 <;> rfl
      | cons x xs =>
          cases fuel2 with
          | zero => simp at h2
          | succ f2 =>
              unfold batchChunkF
              have hd : (xs.drop (b - 1)).length ≤ f := by
                simp only [List.length_drop]
                simp at h1
                omega
              have hd2 : (xs.drop (b - 1)).length ≤ f2 := by
                simp only [List.length_drop]
                simp at h2
                omega
              rw [ih f2 (xs.drop (b - 1)) hd hd2]

theorem batchChunkF_flatten {α : Type} (b : ℕ) :
    ∀ fuel (l : List α), l.length ≤ fuel → (batchChunkF b fuel l).flatten = l := by
  intro fuel
  induction fuel with
  | zero =>
      intro l h
      have : l = [] := List.length_eq_zero.mp (Nat.le_zero.mp h)
      subst this
      rfl
  | succ f ih =>
      intro l h
      cases l with
      | nil => rfl
      | cons x xs =>
          unfold batchChunkF
          simp only [List.flatten_cons]
          have hd : (xs.drop (b - 1)).length ≤ f := by
            simp only [List.length_drop]
            simp at h
            omega
          rw [ih (xs.drop (b - 1)) hd]
          simp [List.take_append_drop]

theorem batchChunk_flatten {α : Type} (b : ℕ) (l : List α) :
    (batchChunk b l).flatten = l :=
  batchChunkF_flatten b l.length l le_rfl

theorem batchChunk_append {α : Type} (b : ℕ) (r s : List α) (hb : 0 < b)
    (hr : r.length = b) : batchChunk b (r ++ s) = r :: batchChunk b s := by
  cases r with
  | nil => simp at hr; omega
  | cons x r' =>
      show batchChunkF b ((x :: r' ++ s)).length ((x :: r') ++ s) = _
      have hlen : ((x :: r' ++ s)).length = (r'.length + s.length) + 1 := by simp
      rw [hlen]
      simp only [List.cons_append]
      simp only [batchChunkF]
      have hr' : r'.length = b - 1 := by simp at hr; omega
      rw [List.take_left' hr', List.drop_left' hr']
      rw [batchChunkF_eq_of_le b (r'.length + s.length) s.length s (by omega) le_rfl]
      rfl

theorem batchChunk_flatten_uniform {α : Type} (F : ℕ) (hF : 0 < F) :
    ∀ L : List (List α), (∀ r ∈ L, r.length = F) → batchChunk F L.flatten = L := by
  intro L
  induction L with
  | nil => intro _; rfl
  | cons r L' ih =>
      intro h
      simp only [List.flatten_cons]
      rw [batchChunk_append F r L'.flatten hF (h r (by simp))]
      rw [ih (fun s hs => h s (by simp [hs]))]

theorem batchChunk_map_flatten {α β : Type} (b : ℕ) (φ : α → β) (l : List α) :
    ((batchChunk b l).map (List.map φ)).flatten = l.map φ := by
  rw [← List.map_flatten, batchChunk_flatten]

/-- The driver's reassembly identity: flattening the `(R, F)` frame tensor,
processing it in loader batches of any size, concatenating, and re-chunking
into rows of length `F` is the same as mapping the per-frame transform over
the original tensor. -/
theorem driver_reassembly {α β : Type} (φ : α → β) (b F : ℕ) (hF : 0 < F)
    (fr : List (List α)) (hrows : ∀ r ∈ fr, r.length = F) :
    batchChunk F (((batchChunk b fr.flatten).map (List.map φ)).flatten) =
      fr.map (List.map φ) := by
  rw [batchChunk_map_flatten, List.map_flatten]
  exact batchChunk_flatten_uniform F hF (fr.map (List.map φ))
    (fun r hr => by
      obtain ⟨r0, hr0, rfl⟩ := List.mem_map.mp hr
      simp [hrows r0 hr0])

/-! ## Facts about the framer proper -/

theorem fits_of_nonpos_hop (sr n S : ℕ) (hop : ℚ) (h : hop ≤ 0) (k : ℕ) :
    fits sr hop n (S + n) k := by
  unfold fits
  have hq : (sr : ℚ) * (k : ℕ) * hop ≤ 0 := by
    have h1 : (0 : ℚ) ≤ (sr : ℚ) * (k : ℕ) := by positivity
    exact mul_nonpos_iff.mpr (Or.inl ⟨h1, h⟩)
  have hr := pyRound_nonpos _ hq
  push_cast
  omega

theorem frameAudio_of_numFrames (rows : List (List ℝ)) (S n F : ℕ) (hop : ℚ) (sr : ℕ)
    (h : numFrames sr hop n (S + n) = some F) :
    frameAudio rows S n hop sr =
      some (rows.map (fun r => (List.range F).map (fun k =>
              ((padRow n r).drop (pyRound ((sr : ℚ) * (k : ℕ) * hop)).toNat).take n)),
            (List.range F).map (fun k => ((k : ℕ) : ℚ) * hop)) := by
  unfold frameAudio
  rw [h]

/-- The claim of C10, as a reusable proposition: the emission loop of
`frame_audio` (padded length `S + n`) admits terminating fuel exactly when
the hop is positive, and for a nonpositive hop every next frame "fits", so
the loop can never break. -/
def FrameLoopTerminatesP (sr n S : ℕ) (hop : ℚ) : Prop :=
  ((∃ fuel, (frameLoopFuel sr hop n (S + n) fuel 0).isSome = true) ↔ 0 < hop) ∧
  (hop ≤ 0 → ∀ k, 1 ≤ k → fits sr hop n (S + n) k)

/-- C10: for every 2-D audio batch with `S ≥ 0` samples, positive sample
rate, and positive frame size, the frame-generation loop of `frame_audio`
terminates if and only if `hop_size > 0`; for `hop_size ≤ 0` the next
frame's end index never exceeds the padded length and the loop runs
forever. -/
theorem frame_loop_terminates_iff (sr n S : ℕ) (hop : ℚ) (hsr : 0 < sr) (hn : 0 < n) :
    FrameLoopTerminatesP sr n S hop := by
  constructor
  · constructor
    · intro hex
      by_contra hc
      have hle : hop ≤ 0 := not_lt.mp hc
      obtain ⟨fuel, hf⟩ := hex
      rw [frameLoopFuel_none_of_fits sr n (S + n) hop
        (fun j _ => fits_of_nonpos_hop sr n S hop hle j) fuel 0] at hf
      cases hf
    · intro hh
      exact ⟨fuelBound sr hop (S + n), numFrames_isSome sr n (S + n) hop hh hsr⟩
  · intro hle k _
    exact fits_of_nonpos_hop sr n S hop hle k

theorem frame_loop_terminates_iff_witness : FrameLoopTerminatesP 1 1 1 1 :=
  frame_loop_terminates_iff 1 1 1 1 (by norm_num) (by norm_num)

/-- The claim of C4, as a reusable proposition: `frame_audio` emits at least
one frame; consecutive frames `1 ≤ k < F` all satisfied the continuation
test; the first frame that no longer fits is exactly frame `F`; and every
emitted frame (including frame `0`) starts at a nonnegative sample index and
ends at or before the padded length `S + n`. -/
def FramerStopRuleP (rows : List (List ℝ)) (S n : ℕ) (hop : ℚ) (sr : ℕ) : Prop :=
  ∃ fr ts, frameAudio rows S n hop sr = some (fr, ts) ∧
    0 < ts.length ∧
    ¬ fits sr hop n (S + n) ts.length ∧
    (∀ k, 0 < k → k < ts.length → fits sr hop n (S + n) k) ∧
    (∀ k, k < ts.length →
      0 ≤ pyRound ((sr : ℚ) * (k : ℕ) * hop) ∧
      pyRound ((sr : ℚ) * (k : ℕ) * hop) + (n : ℤ) ≤ (S : ℤ) + (n : ℤ))

/-- C4: the framer always emits at least one frame, emits frames for
consecutive `k` starting at `0`, stops exactly when the next frame's end
index `round(sr * (k+1) * h) + n` would exceed the padded signal length
`S + n`, and every emitted frame lies fully inside the padded signal. -/
theorem framer_stop_rule (rows : List (List ℝ)) (S n : ℕ) (hop : ℚ) (sr : ℕ)
    (hh : 0 < hop) (hsr : 0 < sr) :
    FramerStopRuleP rows S n hop sr := by
  have hs := numFrames_isSome sr n (S + n) hop hh hsr
  obtain ⟨F, hF⟩ := Option.isSome_iff_exists.mp hs
  obtain ⟨hF0, hFstop, hFfits⟩ := numFrames_spec sr n (S + n) F hop hF
  refine ⟨_, _, frameAudio_of_numFrames rows S n F hop sr hF, ?_, ?_, ?_, ?_⟩
  · simpa using hF0
  · simpa using hFstop
  · intro k hk1 hk2
    exact hFfits k hk1 (by simpa using hk2)
  · intro k hk
    have hk' : k < F := by simpa using hk
    have hnn : 0 ≤ pyRound ((sr : ℚ) * (k : ℕ) * hop) := by
      apply pyRound_nonneg
      positivity
    refine ⟨hnn, ?_⟩
    rcases Nat.eq_zero_or_pos k with h0 | hpos
    · subst h0
      simp only [Nat.cast_zero, mul_zero, zero_mul, pyRound_zero]
      omega
    · have := hFfits k hpos hk'
      unfold fits at this
      push_cast at this
      omega

theorem framer_stop_rule_witness : FramerStopRuleP [[(0 : ℝ)]] 1 1 1 1 :=
  framer_stop_rule [[(0 : ℝ)]] 1 1 1 1 (by norm_num) (by norm_num)

/-- The claim of C3, as a reusable proposition: on a terminating call, every
recording is padded by `⌊n/2⌋` zeros on the left and `n - ⌊n/2⌋` zeros on
the right, emitted frame `k` of recording `i` is the slice of the padded
signal starting at `round(sr * k * hop)` spanning exactly `n` samples, and
the timestamp of frame `k` is exactly `k * hop` seconds. -/
def FramerSlicesP (rows : List (List ℝ)) (S n : ℕ) (hop : ℚ) (sr : ℕ) : Prop :=
  ∃ fr ts, frameAudio rows S n hop sr = some (fr, ts) ∧
    fr.length = rows.length ∧
    (∀ k, k < ts.length → ts.get? k = some (((k : ℕ) : ℚ) * hop)) ∧
    ∀ i r, rows.get? i = some r →
      ∃ fri, fr.get? i = some fri ∧ fri.length = ts.length ∧
        ∀ k, k < ts.length →
          fri.get? k = some (((List.replicate (n / 2) (0 : ℝ) ++ r ++
              List.replicate (n - n / 2) (0 : ℝ)).drop
                (pyRound ((sr : ℚ) * (k : ℕ) * hop)).toNat).take n) ∧
          (((List.replicate (n / 2) (0 : ℝ) ++ r ++
              List.replicate (n - n / 2) (0 : ℝ)).drop
                (pyRound ((sr : ℚ) * (k : ℕ) * hop)).toNat).take n).length = n

/-- C3: for every 2-D audio batch, frame length `n`, positive hop `h` and
positive sample rate `sr`, `frame_audio` pads each recording with `⌊n/2⌋`
zeros on the left and `n - ⌊n/2⌋` zeros on the right, emitted frame `k` is
the slice of the padded signal starting at sample `round(sr * k * h)` and
spanning exactly `n` samples, and the timestamp of frame `k` is exactly
`k * h` seconds. -/
theorem framer_slices (rows : List (List ℝ)) (S n : ℕ) (hop : ℚ) (sr : ℕ)
    (hh : 0 < hop) (hsr : 0 < sr) (hwf : ∀ r ∈ rows, r.length = S) :
    FramerSlicesP rows S n hop sr := by
  have hs := numFrames_isSome sr n (S + n) hop hh hsr
  obtain ⟨F, hF⟩ := Option.isSome_iff_exists.mp hs
  obtain ⟨hF0, hFstop, hFfits⟩ := numFrames_spec sr n (S + n) F hop hF
  refine ⟨_, _, frameAudio_of_numFrames rows S n F hop sr hF, by simp, ?_, ?_⟩
  · intro k hk
    have hk' : k < F := by simpa using hk
    rw [List.get?_map, List.get?_range hk']
    rfl
  · intro i r hir
    refine ⟨_, by rw [List.get?_map, hir]; rfl, by simp, ?_⟩
    intro k hk
    have hk' : k < F := by simpa using hk
    constructor
    · rw [List.get?_map, List.get?_range hk']
      simp only [Option.map_some']
      rw [padRow]
    · -- The emitted frame spans exactly n samples.
      have hlenpad : (List.replicate (n / 2) (0 : ℝ) ++ r ++
          List.replicate (n - n / 2) (0 : ℝ)).length = S + n := by
        simp [List.length_append, hwf r (List.get?_mem hir)]
        omega
      have hbound : (pyRound ((sr : ℚ) * (k : ℕ) * hop)).toNat + n ≤ S + n := by
        rcases Nat.eq_zero_or_pos k with h0 | hpos
        · subst h0
          simp only [Nat.cast_zero, mul_zero, zero_mul, pyRound_zero]
          omega
        · have hf := hFfits k hpos hk'
          unfold fits at hf
          have hnn : 0 ≤ pyRound ((sr : ℚ) * (k : ℕ) * hop) := by
            apply pyRound_nonneg
            positivity
          push_cast at hf
          omega
      simp only [List.length_take, List.length_drop, hlenpad]
      omega

theorem framer_slices_witness : FramerSlicesP [[(0 : ℝ)]] 1 1 1 1 :=
  framer_slices [[(0 : ℝ)]] 1 1 1 1 (by norm_num) (by norm_num) (by simp)

/-! ## The driver's success path -/

theorem getAudioEmbedding_ok (a : ATensor) (m : Model) (hop : ℚ) (b F : ℕ)
    (h2 : a.ndim = 2) (hm : m.isRPME = true)
    (hF : numFrames classSampleRate hop m.n_fft (a.cols + m.n_fft) = some F) :
    getAudioEmbedding a m hop b =
      some (Except.ok
        (batchChunk F (((batchChunk b ((a.rows.map (fun r => (List.range F).map (fun k =>
            ((padRow m.n_fft r).drop
              (pyRound ((classSampleRate : ℚ) * (k : ℕ) * hop)).toNat).take m.n_fft))).flatten)).map
          (fun batch => batch.map (forward1 m))).flatten),
         (List.range F).map (fun k => ((k : ℕ) : ℚ) * hop)),
        evalMode (movedTo m a.device)) := by
  unfold getAudioEmbedding
  rw [if_neg (by simp [h2]), if_neg (by simp [hm])]
  dsimp only
  have hnf : (movedTo m a.device).n_fft = m.n_fft := rfl
  rw [hnf, frameAudio_of_numFrames a.rows a.cols m.n_fft F hop classSampleRate hF]
  dsimp only
  rw [List.length_map, List.length_range]
  rfl

theorem forward1_evalMode_movedTo (m : Model) (d : ℕ) :
    forward1 (evalMode (movedTo m d)) = forward1 m := rfl

/-- The claim of C1, as a reusable proposition: the driver's output is
independent of the batch size, and each entry `[r, f]` of the embedding
tensor is the per-frame transform of frame `(r, f)` of the framer's output
(equivalently, the one-row output of `forward` fed with that frame alone). -/
def DriverBatchInvarianceP (a : ATensor) (m : Model) (hop : ℚ) (b1 b2 : ℕ) : Prop :=
  getAudioEmbedding a m hop b1 = getAudioEmbedding a m hop b2 ∧
  ∃ emb ts m2, getAudioEmbedding a m hop b1 = some (Except.ok (emb, ts), m2) ∧
    ∀ fr tss, frameAudio a.rows a.cols m.n_fft hop classSampleRate = some (fr, tss) →
      ts = tss ∧
      ∀ i k frame, (fr.get? i).bind (fun l => l.get? k) = some frame →
        (emb.get? i).bind (fun l => l.get? k) = some (forward1 m frame) ∧
        forwardB m [frame] = [forward1 m frame]

/-- C1: for every 2-D audio batch, valid model, positive hop and positive
batch sizes, the embedding returned by `get_audio_embedding` at index
`[r, f]` equals the embedding obtained by feeding frame `(r, f)` alone
through the model's forward transform, and the full output (embeddings,
timestamps, and final model state) is identical for any two batch sizes. -/
theorem driver_batch_invariance (a : ATensor) (m : Model) (hop : ℚ) (b1 b2 : ℕ)
    (h2 : a.ndim = 2) (hm : m.isRPME = true) (hh : 0 < hop)
    (hb1 : 0 < b1) (hb2 : 0 < b2) (hR : a.rows ≠ []) :
    DriverBatchInvarianceP a m hop b1 b2 := by
  have hs := numFrames_isSome classSampleRate m.n_fft (a.cols + m.n_fft) hop hh
    (by norm_num [classSampleRate])
  obtain ⟨F, hF⟩ := Option.isSome_iff_exists.mp hs
  have hF0 : 0 < F := (numFrames_spec _ _ _ _ _ hF).1
  have hok1 := getAudioEmbedding_ok a m hop b1 F h2 hm hF
  have hok2 := getAudioEmbedding_ok a m hop b2 F h2 hm hF
  set fr0 : List (List (List ℝ)) := a.rows.map (fun r => (List.range F).map (fun k =>
      ((padRow m.n_fft r).drop
        (pyRound ((classSampleRate : ℚ) * (k : ℕ) * hop)).toNat).take m.n_fft)) with hfr0
  have hrows : ∀ r ∈ fr0, r.length = F := by
    intro r hr
    obtain ⟨r1, _, rfl⟩ := List.mem_map.mp hr
    simp
  have hre1 : batchChunk F (((batchChunk b1 fr0.flatten).map
      (fun batch => batch.map (forward1 m))).flatten) = fr0.map (List.map (forward1 m)) :=
    driver_reassembly (forward1 m) b1 F hF0 fr0 hrows
  have hre2 : batchChunk F (((batchChunk b2 fr0.flatten).map
      (fun batch => batch.map (forward1 m))).flatten) = fr0.map (List.map (forward1 m)) :=
    driver_reassembly (forward1 m) b2 F hF0 fr0 hrows
  constructor
  · rw [hok1, hok2, hre1, hre2]
  · refine ⟨_, _, _, hok1, ?_⟩
    intro fr tss hfa
    rw [frameAudio_of_numFrames a.rows a.cols m.n_fft F hop classSampleRate hF] at hfa
    have hpair := Option.some.inj hfa
    have hfr : fr0 = fr := congrArg Prod.fst hpair
    have hts : (List.range F).map (fun k => ((k : ℕ) : ℚ) * hop) = tss :=
      congrArg Prod.snd hpair
    constructor
    · exact hts
    · intro i k frame hframe
      rw [← hfr] at hframe
      cases hgi : fr0.get? i with
      | none => rw [hre1]; rw [hgi] at hframe; cases hframe
      | some fri =>
          rw [hgi] at hframe
          simp only [Option.some_bind] at hframe
          constructor
          · rw [hre1, List.get?_map, hgi]
            simp only [Option.map_some', Option.some_bind]
            rw [List.get?_map, hframe]
            rfl
          · rfl

/-- A small well-formed model instance used to witness the theorems on
concrete inputs (`n_fft = 2`, one mel band, one embedding dimension). -/
noncomputable def mW : Model :=
  Model.mk true 44100 1 2 1 (1/10000) [1, 1] [[1, 1]] [[1]] false 0

/-- A rank-2 audio tensor with one recording of two samples. -/
noncomputable def aW : ATensor := ATensor.mk 2 2 [[0, 0]] 0

theorem driver_batch_invariance_witness : DriverBatchInvarianceP aW mW 1 1 2 :=
  driver_batch_invariance aW mW 1 1 2 rfl rfl (by norm_num) (by norm_num) (by norm_num)
    (by simp [aW])

/-- The claim of C6, as a reusable proposition: a non-rank-2 audio tensor
makes the driver fail with the InvalidInput error, and a rank-2 tensor with
a model that is not a `RandomProjectionMelEmbedding` instance makes it fail
with the TypeMismatch error; in both cases the error is produced before any
framing (the result does not depend on the hop terminating the framer) and
the caller's model object is returned unchanged. -/
def DriverErrorChecksP (a : ATensor) (m : Model) (hop : ℚ) (b : ℕ) : Prop :=
  (a.ndim ≠ 2 →
    getAudioEmbedding a m hop b = some (Except.error DriverErr.invalidInput, m)) ∧
  (a.ndim = 2 → m.isRPME = false →
    getAudioEmbedding a m hop b = some (Except.error DriverErr.typeMismatch, m))

/-- C6: `get_audio_embedding` raises InvalidInput for every audio tensor
whose rank is not 2, and TypeMismatch for every model object that fails the
`isinstance` contract check; in both cases the error is raised before any
framing or embedding computation occurs and the model state is unchanged. -/
theorem driver_error_checks (a : ATensor) (m : Model) (hop : ℚ) (b : ℕ) :
    DriverErrorChecksP a m hop b := by
  constructor
  · intro h
    unfold getAudioEmbedding
    rw [if_pos h]
  · intro h2 hm
    unfold getAudioEmbedding
    rw [if_neg (by simp [h2]), if_pos hm]

/-- A model object that fails the `isinstance` check. -/
noncomputable def mBadW : Model :=
  Model.mk false 44100 1 2 1 (1/10000) [1, 1] [[1, 1]] [[1]] false 0

/-- A rank-3 audio tensor (contents immaterial for the rank check). -/
noncomputable def aBadW : ATensor := ATensor.mk 3 2 [] 0

theorem driver_error_checks_witness :
    getAudioEmbedding aBadW mW (-1) 512 =
      some (Except.error DriverErr.invalidInput, mW) ∧
    getAudioEmbedding aW mBadW (-1) 512 =
      some (Except.error DriverErr.typeMismatch, mBadW) :=
  ⟨(driver_error_checks aBadW mW (-1) 512).1 (by norm_num [aBadW]),
   (driver_error_checks aW mBadW (-1) 512).2 rfl rfl⟩

/-- Uniqueness of the loop's stopping point: the frame count returned by the
emission loop is the least `F ≥ 1` whose frame no longer fits, so it can be
pinned down by exhibiting that least stop. -/
theorem numFrames_eq (sr n P F : ℕ) (hop : ℚ) (hh : 0 < hop) (hsr : 0 < sr)
    (hF0 : 0 < F) (hstop : ¬ fits sr hop n P F)
    (hbelow : ∀ j, 0 < j → j < F → fits sr hop n P j) :
    numFrames sr hop n P = some F := by
  obtain ⟨F2, hF2⟩ := Option.isSome_iff_exists.mp (numFrames_isSome sr n P hop hh hsr)
  obtain ⟨h1, h2, h3⟩ := numFrames_spec sr n P F2 hop hF2
  have hEq : F = F2 := by
    by_contra hne
    rcases Nat.lt_or_ge F F2 with hlt | hge
    · exact hstop (h3 F hF0 hlt)
    · have hlt2 : F2 < F := by omega
      exact h2 (hbelow F2 h1 hlt2)
  rw [hF2, hEq]

theorem pyRound_intCast (z : ℤ) : pyRound ((z : ℤ) : ℚ) = z := by
  unfold pyRound
  rw [Int.floor_intCast]
  norm_num

/-- The claim of C8, as a reusable proposition (split by outcome): for every
call, the numeric buffers (window, mel filter, projection), the epsilon
constant and the shape attributes of the model are unchanged; on an error
the model object is returned exactly as supplied; on success the call has
set the module to eval mode (training flag false) and moved it to the
audio's device. -/
def DriverModelStateP (a : ATensor) (m : Model) (hop : ℚ) (b : ℕ) : Prop :=
  Option.elim (getAudioEmbedding a m hop b) True (fun p =>
    p.2.window = m.window ∧ p.2.mel_scale = m.mel_scale ∧ p.2.projection = m.projection ∧
    p.2.epsilon = m.epsilon ∧ p.2.n_fft = m.n_fft ∧ p.2.n_mels = m.n_mels ∧
    p.2.embedding_size = m.embedding_size ∧ p.2.sample_rate = m.sample_rate ∧
    p.2.isRPME = m.isRPME ∧
    (∀ e, p.1 = Except.error e → p.2 = m) ∧
    (∀ out, p.1 = Except.ok out → p.2.training = false ∧ p.2.device = a.device))

/-- C8 (amended): `get_audio_embedding` never mutates the window, mel filter
or projection buffers nor any shape attribute, but it does mutate the model
object on the success path: `model.eval()` clears the training flag and
`model.to(audio.device)` moves the module to the audio's device.  On the
error path the model is untouched. -/
theorem driver_model_state (a : ATensor) (m : Model) (hop : ℚ) (b : ℕ) :
    DriverModelStateP a m hop b := by
  unfold DriverModelStateP getAudioEmbedding
  by_cases h2 : a.ndim ≠ 2
  · rw [if_pos h2]
    exact ⟨rfl, rfl, rfl, rfl, rfl, rfl, rfl, rfl, rfl,
      fun e _ => rfl, fun out hout => by simp at hout⟩
  · rw [if_neg h2]
    by_cases hm : m.isRPME = false
    · rw [if_pos hm]
      exact ⟨rfl, rfl, rfl, rfl, rfl, rfl, rfl, rfl, rfl,
        fun e _ => rfl, fun out hout => by simp at hout⟩
    · rw [if_neg hm]
      dsimp only
      cases hfa : frameAudio a.rows a.cols (movedTo m a.device).n_fft hop classSampleRate with
      | none => exact trivial
      | some fts =>
          dsimp only
          exact ⟨rfl, rfl, rfl, rfl, rfl, rfl, rfl, rfl, rfl,
            fun e he => by simp at he, fun out _ => ⟨rfl, rfl⟩⟩

/-- A model instance in training mode on device 0 (the buffers are the ones
of `mW`). -/
noncomputable def mC8 : Model :=
  Model.mk true 44100 1 1 1 (1/10000) [1] [[1]] [[1]] true 0

/-- A rank-2 audio tensor with one recording of one sample, on device 2. -/
noncomputable def aC8 : ATensor := ATensor.mk 2 1 [[0]] 2

theorem numFrames_C8 : numFrames classSampleRate 1 1 (1 + 1) = some 1 := by
  apply numFrames_eq
  · norm_num
  · norm_num [classSampleRate]
  · norm_num
  · unfold fits classSampleRate
    have h44 : ((44100 : ℕ) : ℚ) * ((1 : ℕ) : ℚ) * 1 = ((44100 : ℤ) : ℚ) := by norm_num
    rw [h44, pyRound_intCast]
    norm_num
  · intro j hj1 hj2
    omega

/-- C8 counterexample: a call on a model in training mode, on a different
device than the audio, returns a model whose training flag and device have
changed — the model object is not identical before and after the call. -/
theorem driver_model_state_counterexample :
    (driverModelAfter aC8 mC8 1 1).map Model.training = some false ∧
    (driverModelAfter aC8 mC8 1 1).map Model.device = some 2 ∧
    mC8.training = true ∧ mC8.device = 0 := by
  have hok := getAudioEmbedding_ok aC8 mC8 1 1 1 rfl rfl numFrames_C8
  unfold driverModelAfter
  rw [hok]
  exact ⟨rfl, rfl, rfl, rfl⟩

/-- The claim of C7, as amended, as a reusable proposition: the driver's
result (embeddings, timestamps, error outcome) is invariant under changing
the model instance's declared `sample_rate` attribute — because the framer
is invoked with the class constant `classSampleRate`, not the instance
attribute — while the frame length is the instance attribute `n_fft`: on a
successful call the returned timestamps are exactly those of
`frame_audio(audio, model.n_fft, hop, classSampleRate)`. -/
def DriverFramerArgsP (a : ATensor) (m : Model) (hop : ℚ) (b : ℕ) : Prop :=
  (∀ v, (getAudioEmbedding a (withSampleRate m v) hop b).map Prod.fst =
      (getAudioEmbedding a m hop b).map Prod.fst) ∧
  (a.ndim = 2 → m.isRPME = true →
    ∀ fr tss, frameAudio a.rows a.cols m.n_fft hop classSampleRate = some (fr, tss) →
      driverTs a m hop b = some tss)

/-- C7 (amended): `get_audio_embedding` frames the audio with the frame
length read from the model instance (`model.n_fft`) but with the sample
rate read from the `RandomProjectionMelEmbedding` class (44100), not from
the instance; consequently the output is independent of the instance's
declared `sample_rate`. -/
theorem driver_framer_args (a : ATensor) (m : Model) (hop : ℚ) (b : ℕ) :
    DriverFramerArgsP a m hop b := by
  constructor
  · intro v
    unfold getAudioEmbedding
    by_cases h2 : a.ndim ≠ 2
    · rw [if_pos h2, if_pos h2]
      rfl
    · rw [if_neg h2, if_neg h2]
      by_cases hm : m.isRPME = false
      · have hm' : (withSampleRate m v).isRPME = false := hm
        rw [if_pos hm', if_pos hm]
        rfl
      · have hm' : ¬ (withSampleRate m v).isRPME = false := hm
        rw [if_neg hm', if_neg hm]
        dsimp only
        have e1 : (movedTo (withSampleRate m v) a.device).n_fft = m.n_fft := rfl
        have e2 : (movedTo m a.device).n_fft = m.n_fft := rfl
        rw [e1, e2]
        cases hfa : frameAudio a.rows a.cols m.n_fft hop classSampleRate with
        | none => rfl
        | some fts => rfl
  · intro h2 hm fr tss hfa
    unfold frameAudio at hfa
    cases hnf : numFrames classSampleRate hop m.n_fft (a.cols + m.n_fft) with
    | none => rw [hnf] at hfa; cases hfa
    | some F =>
        rw [hnf] at hfa
        have hts : (List.range F).map (fun k => ((k : ℕ) : ℚ) * hop) = tss :=
          congrArg Prod.snd (Option.some.inj hfa)
        unfold driverTs
        rw [getAudioEmbedding_ok a m hop b F h2 hm hnf]
        rw [hts]

/-- A model instance that declares `sample_rate = 16000` and `n_fft = 4`
(as a subclass of the baseline model could). -/
noncomputable def mC7 : Model :=
  Model.mk true 16000 1 4 1 (1/10000) [1, 1, 1, 1] [[1, 1, 1]] [[1]] false 0

/-- One recording of twenty zero samples. -/
noncomputable def aC7 : ATensor := ATensor.mk 2 20 [List.replicate 20 (0 : ℝ)] 0

theorem numFrames_C7_class : numFrames classSampleRate (1/1000) 4 (20 + 4) = some 1 := by
  apply numFrames_eq
  · norm_num
  · norm_num [classSampleRate]
  · norm_num
  · unfold fits classSampleRate
    norm_num [pyRound]
  · intro j hj1 hj2
    omega

theorem numFrames_C7_inst : numFrames 16000 (1/1000) 4 (20 + 4) = some 2 := by
  apply numFrames_eq
  · norm_num
  · norm_num
  · norm_num
  · unfold fits
    norm_num [pyRound]
  · intro j hj1 hj2
    have hj : j = 1 := by omega
    subst hj
    unfold fits
    norm_num [pyRound]

/-- C7 counterexample: for a model declaring `sample_rate = 16000`, the
driver returns the single timestamp `[0]` (framing at the class rate
44100), whereas framing at the model's declared rate would produce the two
timestamps `[0, 0.001]` — so the driver does not frame at the instance's
declared sample rate. -/
theorem driver_framer_args_counterexample :
    mC7.sample_rate = 16000 ∧
    driverTs aC7 mC7 (1/1000) 512 = some [0] ∧
    (frameAudio aC7.rows aC7.cols mC7.n_fft (1/1000) mC7.sample_rate).map (fun p => p.2) =
      some [0, 1/1000] ∧
    driverTs aC7 mC7 (1/1000) 512 ≠
      (frameAudio aC7.rows aC7.cols mC7.n_fft (1/1000) mC7.sample_rate).map (fun p => p.2) := by
  have hdrv : driverTs aC7 mC7 (1/1000) 512 = some [0] := by
    unfold driverTs
    rw [getAudioEmbedding_ok aC7 mC7 (1/1000) 512 1 rfl rfl numFrames_C7_class]
    rw [show List.range 1 = [0] from rfl]
    norm_num
  have hinst : (frameAudio aC7.rows aC7.cols mC7.n_fft (1/1000) mC7.sample_rate).map
      (fun p => p.2) = some [0, 1/1000] := by
    rw [frameAudio_of_numFrames aC7.rows aC7.cols mC7.n_fft 2 (1/1000) mC7.sample_rate
      numFrames_C7_inst]
    rw [show List.range 2 = [0, 1] from rfl]
    norm_num
  refine ⟨rfl, hdrv, hinst, ?_⟩
  rw [hdrv, hinst]
  simp

theorem frameLoop_shape3 : frameLoopFuel 1 1 4 3 (fuelBound 1 1 3) 0 = some 1 := by
  apply numFrames_eq 1 4 3 1 1
  · norm_num
  · norm_num
  · norm_num
  · unfold fits
    norm_num [pyRound]
  · intro j hj1 hj2
    omega

/-- A rank-3 input of shape `(2, 3, 4)` is processed by `frame_audio`
without any error: padding gives `(2, 3, 8)`, `shape[1] = 3` plays the role
of the padded sample count, a single frame is emitted, and stacking yields
shape `(2, 1, 3, 8)`. -/
theorem frameAudioShape_rank3 : frameAudioShape [2, 3, 4] 4 1 1 = some [2, 1, 3, 8] := by
  unfold frameAudioShape
  rw [show padLast [2, 3, 4] 4 = some [2, 3, 8] from rfl]
  dsimp only
  rw [show ([2, 3, 8] : List ℕ).get? 1 = some 3 from rfl]
  dsimp only
  rw [frameLoop_shape3]
  dsimp only
  rw [show List.range 1 = [0] from rfl]
  dsimp only [List.map]
  have h0 : (pyRound (((1 : ℕ) : ℚ) * ((0 : ℕ) : ℚ) * 1)).toNat = 0 := by
    norm_num [pyRound]
  rw [h0]
  rw [show sliceDim1 [2, 3, 8] 0 4 = [2, 3, 8] from rfl]
  rfl

/-- The claim of C5, as amended, as a reusable proposition: `frame_audio`
itself performs no dimensionality validation.  A tensor of rank below 2
fails (the `audio.shape[1]` access is out of range, or the padding is
impossible on a rank-0 tensor), a rank-3 tensor is framed without any
error, and the exactly-2-D InvalidInput check is performed by
`get_audio_embedding` before framing. -/
def FramerRankP : Prop :=
  (∀ (shape : List ℕ) (n : ℕ) (hop : ℚ) (sr : ℕ), shape.length ≤ 1 →
    frameAudioShape shape n hop sr = none) ∧
  (frameAudioShape [2, 3, 4] 4 1 1).isSome = true ∧
  (∀ (a : ATensor) (m : Model) (hop : ℚ) (b : ℕ), a.ndim ≠ 2 →
    getAudioEmbedding a m hop b = some (Except.error DriverErr.invalidInput, m))

/-- C5 (amended): `frame_audio` does not itself validate that the input is
2-D: inputs of rank below 2 fail on the shape access, but a rank-3 input is
processed without error; the InvalidInput condition for non-2-D audio is
raised by `get_audio_embedding`, before framing. -/
theorem framer_rank_check : FramerRankP := by
  refine ⟨?_, ?_, ?_⟩
  · intro shape n hop sr h
    cases shape with
    | nil => rfl
    | cons d t =>
        cases t with
        | nil => rfl
        | cons d2 t2 => simp at h
  · rw [frameAudioShape_rank3]
    rfl
  · intro a m hop b h
    unfold getAudioEmbedding
    rw [if_pos h]

/-- C5 counterexample: a rank-3 tensor (shape `(2, 3, 4)`) is not rank-2,
yet `frame_audio` completes on it without failing. -/
theorem framer_rank_counterexample :
    ([2, 3, 4] : List ℕ).length ≠ 2 ∧ frameAudioShape [2, 3, 4] 4 1 1 ≠ none := by
  constructor
  · decide
  · rw [frameAudioShape_rank3]
    simp

/-! ## The spectral transform -/

theorem matCols_eq_of (M : List (List ℝ)) (c : ℕ) (hne : M ≠ [])
    (h : ∀ row ∈ M, row.length = c) : matCols M = c := by
  cases M with
  | nil => exact absurd rfl hne
  | cons r t =>
      show r.length = c
      exact h r (by simp)

/-- The claim of C2, as a reusable proposition: on a batch of frames of
width `n_fft`, `forward` is exactly the composition of the six pipeline
steps of the spec, row by row; the FFT stage produces `n_fft/2 + 1` complex
values per frame, the mel stage produces `n_mels` values per frame, and
the final batch has one row of `embedding_size` values per input frame. -/
def ForwardPipelineP (m : Model) (xs : List (List ℝ)) : Prop :=
  forwardB m xs = xs.map (forwardSpecOne m) ∧
  (∀ x ∈ xs, (rfft (stepWindow m x)).length = m.n_fft / 2 + 1) ∧
  (∀ x ∈ xs, (stepMel m (stepPower (rfft (stepWindow m x)))).length = m.n_mels) ∧
  (∀ e ∈ forwardB m xs, e.length = m.embedding_size)

/-- C2: for every frame batch of shape `(N, n_fft)`, the forward transform
is exactly the composition: window, one-sided real FFT (`n_fft/2 + 1` bins),
squared magnitude, mel reduction by the transposed filter matrix
(`n_mels` bands), `log(x + epsilon)`, projection — yielding an
`(N, embedding_size)` batch; it is a pure function of the model state and
the input. -/
theorem forward_pipeline (m : Model) (xs : List (List ℝ)) (hwf : m.wf)
    (hx : ∀ x ∈ xs, x.length = m.n_fft) : ForwardPipelineP m xs := by
  obtain ⟨hw, hmel, _, hproj, hprojrow, hnm⟩ := hwf
  refine ⟨rfl, ?_, ?_, ?_⟩
  · intro x hxx
    unfold rfft
    rw [List.length_map, List.length_range]
    simp [stepWindow, hx x hxx, hw]
  · intro x hxx
    simp [stepMel, hmel]
  · intro e he
    obtain ⟨x, hxx, rfl⟩ := List.mem_map.mp he
    show (forward1 m x).length = m.embedding_size
    have h1 : (forward1 m x).length = matCols m.projection := by
      simp [forward1, vecMat]
    rw [h1]
    apply matCols_eq_of m.projection m.embedding_size
    · intro hc
      rw [hc] at hproj
      simp at hproj
      omega
    · exact hprojrow

theorem forward_pipeline_witness : ForwardPipelineP mW [[0, 0]] :=
  forward_pipeline mW [[0, 0]]
    (by refine ⟨rfl, rfl, ?_, rfl, ?_, by norm_num [mW]⟩ <;> simp [mW])
    (by simp [mW])

/-! ## The zero-frame behaviour of the transform -/

theorem zipWith_replicate_left {α β γ : Type} (f : α → β → γ) (a : α) (l : List β) :
    ∀ c, List.zipWith f (List.replicate c a) l = (l.take c).map (f a) := by
  induction l with
  | nil => intro c; simp
  | cons y t ih =>
      intro c
      cases c with
      | zero => simp
      | succ c2 => simp [List.replicate_succ, ih c2]

theorem stepWindow_zero (m : Model) (hw : m.window.length = m.n_fft) :
    stepWindow m (List.replicate m.n_fft 0) = List.replicate m.n_fft 0 := by
  unfold stepWindow
  rw [zipWith_replicate_left, ← hw, List.take_length m.window]
  have hz : m.window.map (fun b => (0 : ℝ) * b) = m.window.map (fun _ => (0 : ℝ)) :=
    List.map_congr_left (fun b _ => zero_mul b)
  rw [hz]
  simp

theorem rfft_zero (n : ℕ) :
    rfft (List.replicate n (0 : ℝ)) = List.replicate (n / 2 + 1) (0 : ℂ) := by
  unfold rfft
  rw [List.length_replicate]
  have hterm : ∀ k ∈ List.range (n / 2 + 1),
      ((List.range n).map (fun (j : ℕ) =>
        (((List.replicate n (0 : ℝ)).getD j 0 : ℝ) : ℂ) *
          Complex.exp (-(2 * ((Real.pi : ℝ) : ℂ) * Complex.I * ((j : ℕ) : ℂ) * ((k : ℕ) : ℂ))
            / ((n : ℕ) : ℂ)))).sum = (0 : ℂ) := by
    intro k _
    apply List.sum_eq_zero
    intro y hy
    obtain ⟨j, _, rfl⟩ := List.mem_map.mp hy
    simp [List.getD]
  rw [List.map_congr_left hterm]
  simp

theorem stepPower_zero (c : ℕ) :
    stepPower (List.replicate c (0 : ℂ)) = List.replicate c (0 : ℝ) := by
  unfold stepPower
  rw [List.map_replicate]
  simp

theorem dotProd_zero_left (c : ℕ) (row : List ℝ) :
    dotProd (List.replicate c 0) row = 0 := by
  unfold dotProd
  rw [zipWith_replicate_left]
  apply List.sum_eq_zero
  intro y hy
  obtain ⟨b, _, rfl⟩ := List.mem_map.mp hy
  simp

theorem stepMel_zero (m : Model) (hmel : m.mel_scale.length = m.n_mels) (c : ℕ) :
    stepMel m (List.replicate c 0) = List.replicate m.n_mels 0 := by
  unfold stepMel
  have hz : m.mel_scale.map (fun row => dotProd (List.replicate c 0) row) =
      m.mel_scale.map (fun _ => (0 : ℝ)) :=
    List.map_congr_left (fun row _ => dotProd_zero_left c row)
  rw [hz]
  simp [hmel]

theorem vecMat_replicate (c : ℝ) (M : List (List ℝ)) (nrows : ℕ) (hM : M.length = nrows) :
    vecMat (List.replicate nrows c) M =
      (List.range (matCols M)).map (fun j => c * (M.map (fun row => row.getD j 0)).sum) := by
  unfold vecMat
  apply List.map_congr_left
  intro j _
  rw [zipWith_replicate_left, ← hM, List.take_length M]
  exact List.sum_map_mul_left M (fun row => row.getD j 0) c

/-- The claim of C9, as a reusable proposition: for the all-zero frame the
mel reduction is the zero vector, the argument of the logarithm is the
strictly positive constant `0 + epsilon` in every mel band, and the
resulting embedding is the explicit finite vector
`log(0 + epsilon) * (column sums of the projection matrix)` — a function of
the model state alone. -/
def EmbedZeroFrameP (m : Model) : Prop :=
  stepMel m (stepPower (rfft (stepWindow m (List.replicate m.n_fft 0)))) =
    List.replicate m.n_mels 0 ∧
  (0 : ℝ) < 0 + m.epsilon ∧
  forward1 m (List.replicate m.n_fft 0) =
    (List.range m.embedding_size).map (fun j =>
      Real.log (0 + m.epsilon) * (m.projection.map (fun row => row.getD j 0)).sum)

/-- C9: for an all-zero (silent) input frame the embed transform does not
fail: the mel reduction is zero, the log-compression step computes
`log(0 + epsilon)` with the fixed positive floor `epsilon = 1e-4`, and the
resulting embedding vector is finite and uniquely determined by the model
state. -/
theorem embed_zero_frame (m : Model) (hwf : m.wf) (heps : m.epsilon = 1/10000) :
    EmbedZeroFrameP m := by
  obtain ⟨hw, hmel, _, hproj, hprojrow, hnm⟩ := hwf
  have hmelz : stepMel m (stepPower (rfft (stepWindow m (List.replicate m.n_fft 0)))) =
      List.replicate m.n_mels 0 := by
    rw [stepWindow_zero m hw, rfft_zero, stepPower_zero, stepMel_zero m hmel]
  refine ⟨hmelz, by rw [heps]; norm_num, ?_⟩
  have hchain : forward1 m (List.replicate m.n_fft 0) =
      stepProj m (stepLog m (stepMel m (stepPower (rfft
        (stepWindow m (List.replicate m.n_fft 0)))))) := rfl
  rw [hchain, hmelz]
  have hlog : stepLog m (List.replicate m.n_mels 0) =
      List.replicate m.n_mels (Real.log (0 + m.epsilon)) := by
    unfold stepLog
    rw [List.map_replicate]
  rw [hlog]
  unfold stepProj
  rw [vecMat_replicate (Real.log (0 + m.epsilon)) m.projection m.n_mels hproj]
  have hcols : matCols m.projection = m.embedding_size := by
    apply matCols_eq_of m.projection m.embedding_size
    · intro hc
      rw [hc] at hproj
      simp at hproj
      omega
    · exact hprojrow
  rw [hcols]

theorem embed_zero_frame_witness : EmbedZeroFrameP mW :=
  embed_zero_frame mW
    (by refine ⟨rfl, rfl, ?_, rfl, ?_, by norm_num [mW]⟩ <;> simp [mW]) rfl

theorem framer_rank_check_witness :
    frameAudioShape [7] 3 1 2 = none ∧ (frameAudioShape [2, 3, 4] 4 1 1).isSome = true :=
  ⟨framer_rank_check.1 [7] 3 1 2 (by norm_num), framer_rank_check.2.1⟩

theorem numFrames_W : numFrames classSampleRate 1 2 (2 + 2) = some 1 := by
  apply numFrames_eq
  · norm_num
  · norm_num [classSampleRate]
  · norm_num
  · unfold fits classSampleRate
    norm_num [pyRound]
  · intro j hj1 hj2
    omega

theorem driver_framer_args_witness :
    (getAudioEmbedding aW (withSampleRate mW 123) 1 512).map Prod.fst =
      (getAudioEmbedding aW mW 1 512).map Prod.fst ∧
    driverTs aW mW 1 512 =
      some ((List.range 1).map (fun k => ((k : ℕ) : ℚ) * 1)) :=
  ⟨(driver_framer_args aW mW 1 512).1 123,
   (driver_framer_args aW mW 1 512).2 rfl rfl _ _
     (frameAudio_of_numFrames aW.rows aW.cols mW.n_fft 1 1 classSampleRate numFrames_W)⟩
